import Mathlib

/-!
Verification of the Black-Scholes-Merton option pricer
(`src/Option_pricer.py`) against its specification.

The source computes real-valued prices with `math.log`, `math.sqrt`,
`math.exp` and `scipy.stats.norm.cdf`; we embed it over `ℝ`, with the
standard normal CDF defined as the integral of the standard normal
density, which is the mathematical function `norm.cdf` evaluates.
-/

open MeasureTheory Real Set

noncomputable section

namespace OptionPricer

/-- Standard normal probability density function, the density behind
`scipy.stats.norm.cdf`. -/
def normPDF (t : ℝ) : ℝ := (Real.sqrt (2 * π))⁻¹ * Real.exp (-(t ^ 2) / 2)

/-- Standard normal cumulative distribution function `N`: the embedding of
`scipy.stats.norm.cdf` (exact, not the floating-point approximation). -/
def normCDF (x : ℝ) : ℝ := ∫ t in Iic x, normPDF t

/-- The `T ≤ 0` branch of `black_scholes_merton`
(src/Option_pricer.py lines 21-29). -/
def bs_degenerate (S K : ℝ) : ℝ × ℝ :=
  if S > K then (S - K, 0) else (0, K - S)

/-- The `T > 0` branch of `black_scholes_merton`
(src/Option_pricer.py lines 31-49). -/
def bs_standard (S K T r sigma : ℝ) : ℝ × ℝ :=
  let d1 := (Real.log (S / K) + (r + 0.5 * sigma ^ 2) * T) / (sigma * Real.sqrt T)
  let d2 := d1 - sigma * Real.sqrt T
  (S * normCDF d1 - K * Real.exp (-r * T) * normCDF d2,
   K * Real.exp (-r * T) * normCDF (-d2) - S * normCDF (-d1))

/-- Embedding of `black_scholes_merton` (src/Option_pricer.py lines 6-49):
returns the pair `(call_price, put_price)`. -/
def black_scholes_merton (S K T r sigma : ℝ) : ℝ × ℝ :=
  if T ≤ 0 then bs_degenerate S K else bs_standard S K T r sigma

/-- Embedding of `black_scholes_merton` that also tracks the Python runtime
errors of the standard branch: `S / K` raises `ZeroDivisionError` when
`K == 0`, `math.log` raises a `ValueError` (domain error) on a non-positive
argument, and the division by `sigma * math.sqrt(T)` raises
`ZeroDivisionError` when that factor is zero.  `none` models an exception
escaping the function. -/
def black_scholes_merton_checked (S K T r sigma : ℝ) : Option (ℝ × ℝ) :=
  if T ≤ 0 then some (bs_degenerate S K)
  else if K = 0 then none
  else if S / K ≤ 0 then none
  else if sigma * Real.sqrt T = 0 then none
  else some (bs_standard S K T r sigma)

/-- One line entered at a prompt, after Python's `float(...)`: `none` when
parsing raises `ValueError`, `some v` when the text parses to `v`. -/
abbrev Entry := Option ℝ

/-- Embedding of `get_user_input` (src/Option_pricer.py lines 53-65): scan
the entered lines, skipping lines that fail to parse and parsed values
strictly below `min_val` (each with an error message and a reprompt), and
return the first value that passes; `none` when the supplied lines run out
(the Python loop would keep prompting). -/
def get_user_input (min_val : ℝ) : List Entry → Option ℝ
  | [] => none
  | e :: es =>
    match e with
    | none => get_user_input min_val es
    | some v => if v < min_val then get_user_input min_val es else some v

/-- The input-acquisition phase of `main` (src/Option_pricer.py lines 75-79):
`S` and `K` use the default minimum `0.0`, `T` uses `0.0001`, `r` uses
`-0.5`, `sigma` uses `0.0001`. -/
def main_read_inputs (lS lK lT lr lsig : List Entry) :
    Option (ℝ × ℝ × ℝ × ℝ × ℝ) := do
  let S ← get_user_input 0.0 lS
  let K ← get_user_input 0.0 lK
  let T ← get_user_input 0.0001 lT
  let r ← get_user_input (-0.5) lr
  let sigma ← get_user_input 0.0001 lsig
  return (S, K, T, r, sigma)

/-! Spec-side definitions, written from the specification's words, to be
compared with the embedded code. -/

/-- Modelled from the spec, §4.1 step 1: `d1 = (ln(S/K) + (r + 0.5·sigma²)·T) / (sigma·sqrt(T))`. -/
def spec_d1 (S K T r sigma : ℝ) : ℝ :=
  (Real.log (S / K) + (r + 0.5 * sigma ^ 2) * T) / (sigma * Real.sqrt T)

/-- Modelled from the spec, §4.1 step 2: `d2 = d1 - sigma·sqrt(T)`. -/
def spec_d2 (S K T r sigma : ℝ) : ℝ :=
  spec_d1 S K T r sigma - sigma * Real.sqrt T

/-- Modelled from the spec, §4.1 step 4: `callPrice = S·N(d1) - K·exp(-r·T)·N(d2)`. -/
def spec_callPrice (S K T r sigma : ℝ) : ℝ :=
  S * normCDF (spec_d1 S K T r sigma) -
    K * Real.exp (-r * T) * normCDF (spec_d2 S K T r sigma)

/-- Modelled from the spec, §4.1 step 5: `putPrice = K·exp(-r·T)·N(-d2) - S·N(-d1)`. -/
def spec_putPrice (S K T r sigma : ℝ) : ℝ :=
  K * Real.exp (-r * T) * normCDF (-spec_d2 S K T r sigma) -
    S * normCDF (-spec_d1 S K T r sigma)

/-- Modelled from the spec, §6: the first entered value that parses as a
number and is not below the minimum. -/
def spec_first_valid (min_val : ℝ) (entries : List Entry) : Option ℝ :=
  entries.findSome? fun e => e.bind fun v => if v < min_val then none else some v

/-! Helper lemmas on the shell layer. -/

theorem get_user_input_eq_first_valid (min_val : ℝ) (entries : List Entry) :
    get_user_input min_val entries = spec_first_valid min_val entries := by
  induction entries with
  | nil => rfl
  | cons e es ih =>
    cases e with
    | none => simpa [get_user_input, spec_first_valid] using ih
    | some v =>
      by_cases h : v < min_val <;>
        simp [get_user_input, spec_first_valid, List.findSome?, h] at ih ⊢ <;>
        simpa [spec_first_valid] using ih

theorem get_user_input_ge (min_val : ℝ) (entries : List Entry) (v : ℝ)
    (h : get_user_input min_val entries = some v) : min_val ≤ v := by
  induction entries with
  | nil => simp [get_user_input] at h
  | cons e es ih =>
    cases e with
    | none => exact ih (by simpa [get_user_input] using h)
    | some w =>
      by_cases hw : w < min_val
      · exact ih (by simpa [get_user_input, hw] using h)
      · have : w = v := by simpa [get_user_input, hw] using h
        exact this ▸ le_of_not_lt hw

theorem get_user_input_mem (min_val : ℝ) (entries : List Entry) (v : ℝ)
    (h : get_user_input min_val entries = some v) : (some v : Entry) ∈ entries := by
  induction entries with
  | nil => simp [get_user_input] at h
  | cons e es ih =>
    cases e with
    | none => exact List.mem_cons_of_mem _ (ih (by simpa [get_user_input] using h))
    | some w =>
      by_cases hw : w < min_val
      · exact List.mem_cons_of_mem _ (ih (by simpa [get_user_input, hw] using h))
      · have : w = v := by simpa [get_user_input, hw] using h
        exact this ▸ List.mem_cons_self _ _

theorem main_read_inputs_T_min (lS lK lT lr lsig : List Entry)
    (S K T r sigma : ℝ)
    (h : main_read_inputs lS lK lT lr lsig = some (S, K, T, r, sigma)) :
    0.0001 ≤ T := by
  simp only [main_read_inputs, Option.bind_eq_bind, Option.pure_def,
    Option.bind_eq_some, Option.some.injEq, Prod.mk.injEq] at h
  obtain ⟨S', hS, K', hK, T', hT, r', hr, sig', hsig, h1, h2, h3, h4, h5⟩ := h
  exact h3 ▸ get_user_input_ge _ _ _ hT

/-! Analytic facts about the standard normal density and CDF. -/

theorem normPDF_pos (t : ℝ) : 0 < normPDF t := by
  unfold normPDF
  positivity

theorem normPDF_neg (t : ℝ) : normPDF (-t) = normPDF t := by
  unfold normPDF
  rw [neg_sq]

theorem normPDF_eq (t : ℝ) :
    normPDF t = (Real.sqrt (2 * π))⁻¹ * Real.exp (-(1/2 : ℝ) * t ^ 2) := by
  unfold normPDF
  congr 2
  ring

theorem continuous_normPDF : Continuous normPDF := by
  unfold normPDF
  continuity

theorem integrable_normPDF : Integrable normPDF := by
  rw [show normPDF = fun t => (Real.sqrt (2 * π))⁻¹ * Real.exp (-(1/2 : ℝ) * t ^ 2) from
    funext normPDF_eq]
  exact (integrable_exp_neg_mul_sq (by norm_num)).const_mul _

theorem integral_normPDF : ∫ t, normPDF t = 1 := by
  rw [show normPDF = fun t => (Real.sqrt (2 * π))⁻¹ * Real.exp (-(1/2 : ℝ) * t ^ 2) from
    funext normPDF_eq]
  rw [integral_mul_left, integral_gaussian, show π / (1/2 : ℝ) = 2 * π by ring]
  exact inv_mul_cancel₀ (ne_of_gt (Real.sqrt_pos.2 (by positivity)))

/-- Completing the square: exponential tilting shifts the normal density. -/
theorem tilt_normPDF (b t : ℝ) :
    Real.exp (b * t) * normPDF t = Real.exp (b ^ 2 / 2) * normPDF (t - b) := by
  unfold normPDF
  rw [mul_left_comm, mul_left_comm (Real.exp (b ^ 2 / 2)), ← Real.exp_add, ← Real.exp_add]
  congr 2
  ring

theorem setIntegral_normPDF_sub (c b : ℝ) :
    ∫ t in Ioi c, normPDF (t - b) = ∫ t in Ioi (c - b), normPDF t := by
  have hmp : MeasurePreserving (fun t : ℝ => t - b) volume volume :=
    measurePreserving_sub_right volume b
  have hme : MeasurableEmbedding (fun t : ℝ => t - b) :=
    (Homeomorph.subRight b).isClosedEmbedding.measurableEmbedding
  have hpre : Set.preimage (fun t : ℝ => t - b) (Ioi (c - b)) = Ioi c := by
    ext t
    simp [sub_lt_sub_iff_right]
  rw [← hpre, hmp.setIntegral_preimage_emb hme]

theorem setIntegral_normPDF_neg_Iic (x : ℝ) :
    ∫ t in Iic (-x), normPDF t = ∫ t in Ici x, normPDF t := by
  have hmp : MeasurePreserving (fun t : ℝ => -t) volume volume :=
    Measure.measurePreserving_neg volume
  have hme : MeasurableEmbedding (fun t : ℝ => -t) :=
    (Homeomorph.neg ℝ).isClosedEmbedding.measurableEmbedding
  have hpre : Set.preimage (fun t : ℝ => -t) (Ici x) = Iic (-x) := by
    ext t
    simp [le_neg]
  calc ∫ t in Iic (-x), normPDF t
      = ∫ t in Set.preimage (fun t : ℝ => -t) (Ici x), normPDF (-t) := by
        rw [hpre]
        exact setIntegral_congr_fun measurableSet_Iic fun t _ => (normPDF_neg t).symm
    _ = ∫ t in Ici x, normPDF t := hmp.setIntegral_preimage_emb hme _ _

theorem integral_Ioi_normPDF (c : ℝ) :
    ∫ t in Ioi c, normPDF t = 1 - normCDF c := by
  have h := integral_add_compl (measurableSet_Iic (a := c)) integrable_normPDF
  rw [compl_Iic, integral_normPDF] at h
  unfold normCDF
  linarith

theorem normCDF_neg (x : ℝ) : normCDF (-x) = 1 - normCDF x := by
  have h1 : normCDF (-x) = ∫ t in Ici x, normPDF t := setIntegral_normPDF_neg_Iic x
  rw [h1, integral_Ici_eq_integral_Ioi, integral_Ioi_normPDF]

theorem normCDF_nonneg (x : ℝ) : 0 ≤ normCDF x :=
  setIntegral_nonneg measurableSet_Iic fun t _ => (normPDF_pos t).le

theorem normCDF_le_one (x : ℝ) : normCDF x ≤ 1 := by
  have h : 0 ≤ ∫ t in Ioi x, normPDF t :=
    setIntegral_nonneg measurableSet_Ioi fun t _ => (normPDF_pos t).le
  rw [integral_Ioi_normPDF] at h
  linarith

theorem normCDF_mono : Monotone normCDF := fun a b hab =>
  setIntegral_mono_set integrable_normPDF.integrableOn
    (Filter.Eventually.of_forall fun t => (normPDF_pos t).le)
    (HasSubset.Subset.eventuallyLE (Iic_subset_Iic.2 hab))

/-! Exponentially tilted Gaussian integrals, used for the risk-neutral
representation of the two prices. -/

theorem integrable_tilt (b : ℝ) :
    Integrable fun t => Real.exp (b * t) * normPDF t := by
  simp only [tilt_normPDF]
  exact (integrable_normPDF.comp_sub_right b).const_mul _

theorem integral_tilt (b : ℝ) :
    ∫ t, Real.exp (b * t) * normPDF t = Real.exp (b ^ 2 / 2) := by
  simp only [tilt_normPDF]
  rw [integral_mul_left]
  have hmp : MeasurePreserving (fun t : ℝ => t - b) volume volume :=
    measurePreserving_sub_right volume b
  have hme : MeasurableEmbedding (fun t : ℝ => t - b) :=
    (Homeomorph.subRight b).isClosedEmbedding.measurableEmbedding
  rw [hmp.integral_comp hme, integral_normPDF, mul_one]

theorem integral_Ioi_tilt (c b : ℝ) :
    ∫ t in Ioi c, Real.exp (b * t) * normPDF t
      = Real.exp (b ^ 2 / 2) * (1 - normCDF (c - b)) := by
  simp only [tilt_normPDF]
  rw [integral_mul_left, setIntegral_normPDF_sub, integral_Ioi_normPDF]

/-- The call payoff is in the money exactly above the threshold `-θ`. -/
theorem payoff_lt_iff (S K a b z : ℝ) (hS : 0 < S) (hK : 0 < K) (hb : 0 < b) :
    K < S * Real.exp (a + b * z) ↔ -((Real.log (S / K) + a) / b) < z := by
  have h1 : S * Real.exp (a + b * z) = Real.exp (Real.log S + (a + b * z)) := by
    rw [Real.exp_add (Real.log S), Real.exp_log hS]
  rw [h1, ← Real.log_lt_iff_lt_exp hK, Real.log_div (ne_of_gt hS) (ne_of_gt hK),
    ← neg_div, div_lt_iff hb]
  constructor <;> intro h <;> linarith

/-- Closed form of the expected discounted call payoff against the standard
normal density. -/
theorem integral_call_payoff (S K a b : ℝ) (hS : 0 < S) (hK : 0 < K) (hb : 0 < b) :
    ∫ z, max (S * Real.exp (a + b * z) - K) 0 * normPDF z
      = S * Real.exp (a + b ^ 2 / 2) *
          normCDF ((Real.log (S / K) + a) / b + b) -
        K * normCDF ((Real.log (S / K) + a) / b) := by
  set θ := (Real.log (S / K) + a) / b with hθ
  have hind : (fun z => max (S * Real.exp (a + b * z) - K) 0 * normPDF z) =
      Set.indicator (Ioi (-θ)) fun z => (S * Real.exp (a + b * z) - K) * normPDF z := by
    funext z
    by_cases hz : z ∈ Ioi (-θ)
    · rw [Set.indicator_of_mem hz]
      have h := (payoff_lt_iff S K a b z hS hK hb).2 hz
      rw [max_eq_left (by linarith)]
    · rw [Set.indicator_of_not_mem hz]
      have h : ¬ K < S * Real.exp (a + b * z) := fun hc =>
        hz ((payoff_lt_iff S K a b z hS hK hb).1 hc)
      rw [max_eq_right (by linarith [not_lt.1 h]), zero_mul]
  rw [hind, integral_indicator measurableSet_Ioi]
  have hsplit : ∀ z, (S * Real.exp (a + b * z) - K) * normPDF z
      = S * Real.exp a * (Real.exp (b * z) * normPDF z) - K * normPDF z := by
    intro z
    rw [Real.exp_add]
    ring
  simp only [hsplit]
  rw [integral_sub ((integrable_tilt b).const_mul _).integrableOn
    (integrable_normPDF.const_mul K).integrableOn,
    integral_mul_left, integral_mul_left, integral_Ioi_tilt, integral_Ioi_normPDF]
  have h2 : (1 : ℝ) - normCDF (-θ - b) = normCDF (θ + b) := by
    rw [show -θ - b = -(θ + b) by ring, normCDF_neg]
    ring
  have h3 : (1 : ℝ) - normCDF (-θ) = normCDF θ := by
    rw [normCDF_neg]
    ring
  rw [h2, h3, Real.exp_add]
  ring

theorem integrable_call_payoff (S K a b : ℝ) (hS : 0 < S) (hK : 0 < K) :
    Integrable fun z => max (S * Real.exp (a + b * z) - K) 0 * normPDF z := by
  refine Integrable.mono ((integrable_tilt b).const_mul (S * Real.exp a)) ?_ ?_
  · exact (Continuous.mul (Continuous.max ((continuous_const.mul
      (Real.continuous_exp.comp (continuous_const.add (continuous_const.mul
        continuous_id)))).sub continuous_const) continuous_const)
      continuous_normPDF).aestronglyMeasurable
  · refine Filter.Eventually.of_forall fun z => ?_
    rw [Real.norm_eq_abs, Real.norm_eq_abs,
      abs_of_nonneg (mul_nonneg (le_max_right _ _) (normPDF_pos z).le)]
    have hb1 : max (S * Real.exp (a + b * z) - K) 0 ≤ S * Real.exp (a + b * z) :=
      max_le (sub_le_self _ hK.le) (by positivity)
    calc max (S * Real.exp (a + b * z) - K) 0 * normPDF z
        ≤ S * Real.exp (a + b * z) * normPDF z :=
          mul_le_mul_of_nonneg_right hb1 (normPDF_pos z).le
      _ = S * Real.exp a * (Real.exp (b * z) * normPDF z) := by
          rw [Real.exp_add]
          ring
      _ ≤ |S * Real.exp a * (Real.exp (b * z) * normPDF z)| := le_abs_self _

theorem integrable_put_payoff (S K a b : ℝ) (hS : 0 < S) (hK : 0 < K) :
    Integrable fun z => max (K - S * Real.exp (a + b * z)) 0 * normPDF z := by
  refine Integrable.mono (integrable_normPDF.const_mul K) ?_ ?_
  · exact (Continuous.mul (Continuous.max (continuous_const.sub
      (continuous_const.mul (Real.continuous_exp.comp (continuous_const.add
        (continuous_const.mul continuous_id))))) continuous_const)
      continuous_normPDF).aestronglyMeasurable
  · refine Filter.Eventually.of_forall fun z => ?_
    rw [Real.norm_eq_abs, Real.norm_eq_abs,
      abs_of_nonneg (mul_nonneg (le_max_right _ _) (normPDF_pos z).le)]
    have hb1 : max (K - S * Real.exp (a + b * z)) 0 ≤ K :=
      max_le (by nlinarith [Real.exp_pos (a + b * z)]) hK.le
    calc max (K - S * Real.exp (a + b * z)) 0 * normPDF z
        ≤ K * normPDF z := mul_le_mul_of_nonneg_right hb1 (normPDF_pos z).le
      _ ≤ |K * normPDF z| := le_abs_self _

theorem integrable_forward (S K a b : ℝ) :
    Integrable fun z => (K - S * Real.exp (a + b * z)) * normPDF z := by
  have hsplit : ∀ z, (K - S * Real.exp (a + b * z)) * normPDF z
      = K * normPDF z - S * Real.exp a * (Real.exp (b * z) * normPDF z) := by
    intro z
    rw [Real.exp_add]
    ring
  simp only [hsplit]
  exact (integrable_normPDF.const_mul K).sub ((integrable_tilt b).const_mul _)

/-- Expected forward shortfall against the standard normal density. -/
theorem integral_forward (S K a b : ℝ) :
    ∫ z, (K - S * Real.exp (a + b * z)) * normPDF z
      = K - S * Real.exp (a + b ^ 2 / 2) := by
  have hsplit : ∀ z, (K - S * Real.exp (a + b * z)) * normPDF z
      = K * normPDF z - S * Real.exp a * (Real.exp (b * z) * normPDF z) := by
    intro z
    rw [Real.exp_add]
    ring
  simp only [hsplit]
  rw [integral_sub (integrable_normPDF.const_mul K) ((integrable_tilt b).const_mul _),
    integral_mul_left, integral_mul_left, integral_normPDF, integral_tilt, Real.exp_add]
  ring

theorem max_sub_comm (v w : ℝ) : max (w - v) 0 = max (v - w) 0 + (w - v) := by
  rcases le_total v w with h | h
  · rw [max_eq_left (by linarith), max_eq_right (by linarith)]
    ring
  · rw [max_eq_right (by linarith), max_eq_left (by linarith)]
    ring

/-- The expected put payoff, from the call payoff and the forward. -/
theorem integral_put_payoff (S K a b : ℝ) (hS : 0 < S) (hK : 0 < K) :
    ∫ z, max (K - S * Real.exp (a + b * z)) 0 * normPDF z
      = (∫ z, max (S * Real.exp (a + b * z) - K) 0 * normPDF z)
        + K - S * Real.exp (a + b ^ 2 / 2) := by
  have hsplit : ∀ z, max (K - S * Real.exp (a + b * z)) 0 * normPDF z
      = max (S * Real.exp (a + b * z) - K) 0 * normPDF z
        + (K - S * Real.exp (a + b * z)) * normPDF z := by
    intro z
    rw [max_sub_comm]
    ring
  simp only [hsplit]
  rw [integral_add (integrable_call_payoff S K a b hS hK) (integrable_forward S K a b),
    integral_forward]
  ring

/-- The two components of the standard branch, with the lets unfolded. -/
theorem bs_standard_def (S K T r sigma : ℝ) :
    bs_standard S K T r sigma =
      (S * normCDF (spec_d1 S K T r sigma) -
         K * Real.exp (-r * T) * normCDF (spec_d2 S K T r sigma),
       K * Real.exp (-r * T) * normCDF (-spec_d2 S K T r sigma) -
         S * normCDF (-spec_d1 S K T r sigma)) := rfl

theorem d2_eq (S K T r sigma : ℝ) (hT : 0 < T) (hsig : 0 < sigma) :
    (Real.log (S / K) + (r - sigma ^ 2 / 2) * T) / (sigma * Real.sqrt T)
      = spec_d2 S K T r sigma := by
  have hss : Real.sqrt T * Real.sqrt T = T := Real.mul_self_sqrt hT.le
  have hσ : sigma ≠ 0 := ne_of_gt hsig
  have hs : Real.sqrt T ≠ 0 := ne_of_gt (Real.sqrt_pos.2 hT)
  unfold spec_d2 spec_d1
  set u := Real.sqrt T with hu
  rw [← hss]
  field_simp
  ring

theorem d2_add_width (S K T r sigma : ℝ) :
    spec_d2 S K T r sigma + sigma * Real.sqrt T = spec_d1 S K T r sigma := by
  unfold spec_d2
  ring

theorem drift_plus_half_var (T r sigma : ℝ) (hT : 0 < T) :
    (r - sigma ^ 2 / 2) * T + (sigma * Real.sqrt T) ^ 2 / 2 = r * T := by
  rw [mul_pow, Real.sq_sqrt hT.le]
  ring

theorem exp_neg_mul_exp_self (x : ℝ) : Real.exp (-x) * Real.exp x = 1 := by
  rw [← Real.exp_add]
  simp

/-- Risk-neutral representation of the call price: the standard-branch call
price is the discounted expectation of the call payoff under the lognormal
terminal price. -/
theorem bs_call_rep (S K T r sigma : ℝ)
    (hS : 0 < S) (hK : 0 < K) (hT : 0 < T) (hsig : 0 < sigma) :
    (bs_standard S K T r sigma).1 =
      Real.exp (-r * T) *
        ∫ z, max (S * Real.exp ((r - sigma ^ 2 / 2) * T + sigma * Real.sqrt T * z) - K) 0 *
          normPDF z := by
  have hb : 0 < sigma * Real.sqrt T := mul_pos hsig (Real.sqrt_pos.2 hT)
  rw [integral_call_payoff S K ((r - sigma ^ 2 / 2) * T) (sigma * Real.sqrt T) hS hK hb,
    d2_eq S K T r sigma hT hsig, d2_add_width, drift_plus_half_var T r sigma hT,
    bs_standard_def]
  have hexp : Real.exp (-r * T) * Real.exp (r * T) = 1 := by
    rw [show -r * T = -(r * T) by ring]
    exact exp_neg_mul_exp_self (r * T)
  linear_combination (-(S * normCDF (spec_d1 S K T r sigma))) * hexp

/-- Risk-neutral representation of the put price. -/
theorem bs_put_rep (S K T r sigma : ℝ)
    (hS : 0 < S) (hK : 0 < K) (hT : 0 < T) (hsig : 0 < sigma) :
    (bs_standard S K T r sigma).2 =
      Real.exp (-r * T) *
        ∫ z, max (K - S * Real.exp ((r - sigma ^ 2 / 2) * T + sigma * Real.sqrt T * z)) 0 *
          normPDF z := by
  have hb : 0 < sigma * Real.sqrt T := mul_pos hsig (Real.sqrt_pos.2 hT)
  rw [integral_put_payoff S K ((r - sigma ^ 2 / 2) * T) (sigma * Real.sqrt T) hS hK,
    integral_call_payoff S K ((r - sigma ^ 2 / 2) * T) (sigma * Real.sqrt T) hS hK hb,
    d2_eq S K T r sigma hT hsig, d2_add_width, drift_plus_half_var T r sigma hT,
    bs_standard_def]
  simp only [normCDF_neg]
  have hexp : Real.exp (-r * T) * Real.exp (r * T) = 1 := by
    rw [show -r * T = -(r * T) by ring]
    exact exp_neg_mul_exp_self (r * T)
  linear_combination (S - S * normCDF (spec_d1 S K T r sigma)) * hexp

theorem bs_degenerate_eq_max (S K : ℝ) :
    bs_degenerate S K = (max (S - K) 0, max (K - S) 0) := by
  unfold bs_degenerate
  rcases lt_or_le K S with h | h
  · rw [if_pos h, max_eq_left (by linarith), max_eq_right (by linarith)]
  · rw [if_neg (not_lt.2 h), max_eq_right (by linarith), max_eq_left (by linarith)]

theorem payoff_integral_mono {f g : ℝ → ℝ}
    (hf : Integrable fun z => f z * normPDF z) (hg : Integrable fun z => g z * normPDF z)
    (h : ∀ z, f z ≤ g z) :
    ∫ z, f z * normPDF z ≤ ∫ z, g z * normPDF z :=
  integral_mono hf hg fun z => mul_le_mul_of_nonneg_right (h z) (normPDF_pos z).le

theorem bsm_standard_of_pos {S K T r sigma : ℝ} (hT : 0 < T) :
    black_scholes_merton S K T r sigma = bs_standard S K T r sigma := by
  rw [black_scholes_merton, if_neg (not_le.2 hT)]

theorem bsm_degenerate_of_nonpos {S K T r sigma : ℝ} (hT : T ≤ 0) :
    black_scholes_merton S K T r sigma = bs_degenerate S K := by
  rw [black_scholes_merton, if_pos hT]

/-- C1: for every S > 0, K > 0, T > 0, r and sigma > 0,
`black_scholes_merton` returns the pair `(callPrice, putPrice)` given by the
spec's formulas: `d1 = (ln(S/K) + (r + 0.5·sigma²)·T)/(sigma·√T)`,
`d2 = d1 - sigma·√T`, `callPrice = S·N(d1) - K·exp(-r·T)·N(d2)` and
`putPrice = K·exp(-r·T)·N(-d2) - S·N(-d1)`. -/
theorem C1_standard_branch_formula (S K T r sigma : ℝ)
    (hS : 0 < S) (hK : 0 < K) (hT : 0 < T) (hsig : 0 < sigma) :
    black_scholes_merton S K T r sigma =
      (spec_callPrice S K T r sigma, spec_putPrice S K T r sigma) := by
  rw [bsm_standard_of_pos hT]
  rfl

/-- Witness for C1 at `S = K = 100`, `T = 1`, `r = 1/20`, `sigma = 1/5`. -/
theorem C1_witness :
    black_scholes_merton 100 100 1 (1/20) (1/5) =
      (spec_callPrice 100 100 1 (1/20) (1/5), spec_putPrice 100 100 1 (1/20) (1/5)) :=
  C1_standard_branch_formula 100 100 1 (1/20) (1/5)
    (by norm_num) (by norm_num) (by norm_num) (by norm_num)

/-- C2: for every T ≤ 0, `black_scholes_merton` returns intrinsic values with
the tie at `S = K` going to the put side: `(S - K, 0)` when `S > K`, and
`(0, K - S)` when `S ≤ K` (including `S = K`). -/
theorem C2_degenerate_branch (S K T r sigma : ℝ) (hT : T ≤ 0) :
    (K < S → black_scholes_merton S K T r sigma = (S - K, 0)) ∧
    (S ≤ K → black_scholes_merton S K T r sigma = (0, K - S)) := by
  rw [bsm_degenerate_of_nonpos hT]
  unfold bs_degenerate
  constructor
  · intro h; rw [if_pos h]
  · intro h; rw [if_neg (not_lt.2 h)]

/-- Witness for C2 at the tie `S = K = 100`, `T = 0`: the put branch is
taken and both prices are zero. -/
theorem C2_witness :
    black_scholes_merton 100 100 0 (1/20) (1/5) = (0, 100 - 100) :=
  (C2_degenerate_branch 100 100 0 (1/20) (1/5) le_rfl).2 le_rfl

/-- C3: put-call parity. For every S > 0, K > 0, T > 0, r and sigma > 0,
the pair returned by `black_scholes_merton` satisfies
`call - put = S - K·exp(-r·T)` exactly in real arithmetic. -/
theorem C3_put_call_parity (S K T r sigma : ℝ)
    (hS : 0 < S) (hK : 0 < K) (hT : 0 < T) (hsig : 0 < sigma) :
    (black_scholes_merton S K T r sigma).1 -
        (black_scholes_merton S K T r sigma).2 = S - K * Real.exp (-r * T) := by
  rw [bsm_standard_of_pos hT, bs_standard_def]
  simp only [normCDF_neg]
  ring

/-- Witness for C3 at `S = K = 100`, `T = 1`, `r = 1/20`, `sigma = 1/5`. -/
theorem C3_witness :
    (black_scholes_merton 100 100 1 (1/20) (1/5)).1 -
        (black_scholes_merton 100 100 1 (1/20) (1/5)).2 =
      100 - 100 * Real.exp (-(1/20) * 1) :=
  C3_put_call_parity 100 100 1 (1/20) (1/5)
    (by norm_num) (by norm_num) (by norm_num) (by norm_num)

/-- C4: non-negativity. For every valid input (S > 0, K > 0, any T, any r,
and sigma > 0 when T > 0) both components of the returned pair are ≥ 0. -/
theorem C4_nonnegativity (S K T r sigma : ℝ) (hS : 0 < S) (hK : 0 < K)
    (hsig : 0 < T → 0 < sigma) :
    0 ≤ (black_scholes_merton S K T r sigma).1 ∧
    0 ≤ (black_scholes_merton S K T r sigma).2 := by
  rcases le_or_lt T 0 with hT | hT
  · rw [bsm_degenerate_of_nonpos hT, bs_degenerate_eq_max]
    exact ⟨le_max_right _ _, le_max_right _ _⟩
  · have hs := hsig hT
    rw [bsm_standard_of_pos hT]
    refine ⟨?_, ?_⟩
    · rw [bs_call_rep S K T r sigma hS hK hT hs]
      exact mul_nonneg (Real.exp_pos _).le
        (integral_nonneg fun z => mul_nonneg (le_max_right _ _) (normPDF_pos z).le)
    · rw [bs_put_rep S K T r sigma hS hK hT hs]
      exact mul_nonneg (Real.exp_pos _).le
        (integral_nonneg fun z => mul_nonneg (le_max_right _ _) (normPDF_pos z).le)

/-- Witness for C4 at `S = K = 100`, `T = 1`, `r = 1/20`, `sigma = 1/5`. -/
theorem C4_witness :
    0 ≤ (black_scholes_merton 100 100 1 (1/20) (1/5)).1 ∧
    0 ≤ (black_scholes_merton 100 100 1 (1/20) (1/5)).2 :=
  C4_nonnegativity 100 100 1 (1/20) (1/5) (by norm_num) (by norm_num)
    (fun _ => by norm_num)

/-- C5: monotonicity. With the other parameters fixed (and valid: positive
spot, strike and volatility), the call price is non-decreasing in S and
non-increasing in K, and the put price is non-increasing in S and
non-decreasing in K; this holds in both branches (any T). -/
theorem C5_monotonicity (T r sigma : ℝ) (hsig : 0 < sigma) :
    (∀ S1 S2 K : ℝ, 0 < S1 → S1 ≤ S2 → 0 < K →
      (black_scholes_merton S1 K T r sigma).1 ≤ (black_scholes_merton S2 K T r sigma).1 ∧
      (black_scholes_merton S2 K T r sigma).2 ≤ (black_scholes_merton S1 K T r sigma).2) ∧
    (∀ S K1 K2 : ℝ, 0 < S → 0 < K1 → K1 ≤ K2 →
      (black_scholes_merton S K2 T r sigma).1 ≤ (black_scholes_merton S K1 T r sigma).1 ∧
      (black_scholes_merton S K1 T r sigma).2 ≤ (black_scholes_merton S K2 T r sigma).2) := by
  rcases le_or_lt T 0 with hT | hT
  · constructor
    · intro S1 S2 K hS1 hS12 hK
      rw [bsm_degenerate_of_nonpos hT, bsm_degenerate_of_nonpos hT,
        bs_degenerate_eq_max, bs_degenerate_eq_max]
      exact ⟨max_le_max (by linarith) le_rfl, max_le_max (by linarith) le_rfl⟩
    · intro S K1 K2 hS hK1 hK12
      rw [bsm_degenerate_of_nonpos hT, bsm_degenerate_of_nonpos hT,
        bs_degenerate_eq_max, bs_degenerate_eq_max]
      exact ⟨max_le_max (by linarith) le_rfl, max_le_max (by linarith) le_rfl⟩
  · constructor
    · intro S1 S2 K hS1 hS12 hK
      have hS2 : 0 < S2 := lt_of_lt_of_le hS1 hS12
      rw [bsm_standard_of_pos hT, bsm_standard_of_pos hT]
      constructor
      · rw [bs_call_rep S1 K T r sigma hS1 hK hT hsig,
          bs_call_rep S2 K T r sigma hS2 hK hT hsig]
        refine mul_le_mul_of_nonneg_left ?_ (Real.exp_pos _).le
        refine payoff_integral_mono
          (integrable_call_payoff S1 K _ _ hS1 hK)
          (integrable_call_payoff S2 K _ _ hS2 hK) fun z => ?_
        exact max_le_max (sub_le_sub_right
          (mul_le_mul_of_nonneg_right hS12 (Real.exp_pos _).le) K) le_rfl
      · rw [bs_put_rep S1 K T r sigma hS1 hK hT hsig,
          bs_put_rep S2 K T r sigma hS2 hK hT hsig]
        refine mul_le_mul_of_nonneg_left ?_ (Real.exp_pos _).le
        refine payoff_integral_mono
          (integrable_put_payoff S2 K _ _ hS2 hK)
          (integrable_put_payoff S1 K _ _ hS1 hK) fun z => ?_
        exact max_le_max (sub_le_sub_left
          (mul_le_mul_of_nonneg_right hS12 (Real.exp_pos _).le) K) le_rfl
    · intro S K1 K2 hS hK1 hK12
      have hK2 : 0 < K2 := lt_of_lt_of_le hK1 hK12
      rw [bsm_standard_of_pos hT, bsm_standard_of_pos hT]
      constructor
      · rw [bs_call_rep S K1 T r sigma hS hK1 hT hsig,
          bs_call_rep S K2 T r sigma hS hK2 hT hsig]
        refine mul_le_mul_of_nonneg_left ?_ (Real.exp_pos _).le
        refine payoff_integral_mono
          (integrable_call_payoff S K2 _ _ hS hK2)
          (integrable_call_payoff S K1 _ _ hS hK1) fun z => ?_
        exact max_le_max (sub_le_sub_left hK12 _) le_rfl
      · rw [bs_put_rep S K1 T r sigma hS hK1 hT hsig,
          bs_put_rep S K2 T r sigma hS hK2 hT hsig]
        refine mul_le_mul_of_nonneg_left ?_ (Real.exp_pos _).le
        refine payoff_integral_mono
          (integrable_put_payoff S K1 _ _ hS hK1)
          (integrable_put_payoff S K2 _ _ hS hK2) fun z => ?_
        exact max_le_max (sub_le_sub_right hK12 _) le_rfl

/-- Witness for C5 at `T = 1`, `r = 1/20`, `sigma = 1/5`, comparing spots
`100 ≤ 110` at strike `100`. -/
theorem C5_witness :
    (black_scholes_merton 100 100 1 (1/20) (1/5)).1 ≤
      (black_scholes_merton 110 100 1 (1/20) (1/5)).1 ∧
    (black_scholes_merton 110 100 1 (1/20) (1/5)).2 ≤
      (black_scholes_merton 100 100 1 (1/20) (1/5)).2 :=
  (C5_monotonicity 1 (1/20) (1/5) (by norm_num)).1 100 110 100
    (by norm_num) (by norm_num) (by norm_num)

/-- C6: at-the-money symmetry. For `S = K > 0`, `r = 0`, `T > 0`, `sigma > 0`
the returned call and put prices are equal, and both reduce to
`S·(N(d1) - N(d2))`. -/
theorem C6_atm_symmetry (S T sigma : ℝ)
    (hS : 0 < S) (hT : 0 < T) (hsig : 0 < sigma) :
    (black_scholes_merton S S T 0 sigma).1 = (black_scholes_merton S S T 0 sigma).2 ∧
    (black_scholes_merton S S T 0 sigma).1 =
      S * (normCDF (spec_d1 S S T 0 sigma) - normCDF (spec_d2 S S T 0 sigma)) := by
  rw [bsm_standard_of_pos hT, bs_standard_def]
  simp only [normCDF_neg, neg_zero, zero_mul, Real.exp_zero]
  constructor <;> ring

/-- Witness for C6 at `S = 100`, `T = 1`, `sigma = 1/5`. -/
theorem C6_witness :
    (black_scholes_merton 100 100 1 0 (1/5)).1 = (black_scholes_merton 100 100 1 0 (1/5)).2 ∧
    (black_scholes_merton 100 100 1 0 (1/5)).1 =
      100 * (normCDF (spec_d1 100 100 1 0 (1/5)) - normCDF (spec_d2 100 100 1 0 (1/5))) :=
  C6_atm_symmetry 100 1 (1/5) (by norm_num) (by norm_num) (by norm_num)

/-- C7: `get_user_input` returns the first entered value that parses as a
number and is not below `min_val`; rejected entries (parse failures or values
strictly below the minimum) are never returned; and `main` reads its five
fields with minimums `0.0` for S and K, `0.0001` for T, `-0.5` for r and
`0.0001` for sigma. -/
theorem C7_input_validation :
    (∀ (min_val : ℝ) (entries : List Entry),
      get_user_input min_val entries = spec_first_valid min_val entries) ∧
    (∀ (min_val : ℝ) (entries : List Entry) (v : ℝ),
      get_user_input min_val entries = some v →
        min_val ≤ v ∧ (some v : Entry) ∈ entries) ∧
    (∀ lS lK lT lr lsig : List Entry,
      main_read_inputs lS lK lT lr lsig = do {
        let S ← get_user_input 0.0 lS
        let K ← get_user_input 0.0 lK
        let T ← get_user_input 0.0001 lT
        let r ← get_user_input (-0.5) lr
        let sigma ← get_user_input 0.0001 lsig
        return (S, K, T, r, sigma) }) :=
  ⟨get_user_input_eq_first_valid,
   fun min_val entries v h =>
     ⟨get_user_input_ge min_val entries v h, get_user_input_mem min_val entries v h⟩,
   fun _ _ _ _ _ => rfl⟩

/-- Witness for C7: on the single entered line `5` with minimum `0`, the
returned value `5` meets the minimum and is among the entries. -/
theorem C7_witness : (0 : ℝ) ≤ 5 ∧ (some (5 : ℝ) : Entry) ∈ [some (5 : ℝ)] :=
  C7_input_validation.2.1 0 [some 5] 5 (by norm_num [get_user_input])

/-- C8: whenever `T ≥ 0.0001` (the shell's floor for T), the `T ≤ 0` branch
of `black_scholes_merton` is not taken; every tuple produced by the
interactive path leads to the standard branch; and the degenerate branch
remains reachable by a direct call. -/
theorem C8_degenerate_branch_unreachable_interactively :
    (∀ S K T r sigma : ℝ, 0.0001 ≤ T →
      black_scholes_merton S K T r sigma = bs_standard S K T r sigma) ∧
    (∀ (lS lK lT lr lsig : List Entry) (S K T r sigma : ℝ),
      main_read_inputs lS lK lT lr lsig = some (S, K, T, r, sigma) →
      black_scholes_merton S K T r sigma = bs_standard S K T r sigma) ∧
    (∃ S K T r sigma : ℝ, T ≤ 0 ∧
      black_scholes_merton S K T r sigma = bs_degenerate S K) := by
  refine ⟨fun S K T r sigma hT => bsm_standard_of_pos (by norm_num at hT ⊢; linarith), ?_, ?_⟩
  · intro lS lK lT lr lsig S K T r sigma h
    have hT := main_read_inputs_T_min lS lK lT lr lsig S K T r sigma h
    exact bsm_standard_of_pos (by norm_num at hT ⊢; linarith)
  · exact ⟨100, 100, 0, 0, 0, le_rfl, bsm_degenerate_of_nonpos le_rfl⟩

/-- Witness for C8 at `T = 1 ≥ 0.0001`: the standard branch is taken. -/
theorem C8_witness :
    black_scholes_merton 100 100 1 (1/20) (1/5) = bs_standard 100 100 1 (1/20) (1/5) :=
  C8_degenerate_branch_unreachable_interactively.1 100 100 1 (1/20) (1/5) (by norm_num)

/-- C9: the shell accepts `S = 0` (its minimum for S is `0.0`, and only
values strictly below the minimum are rejected), yet for `S = 0`, `K > 0`,
`T > 0` the pricer raises instead of returning a pair: `math.log(0/K)` is a
domain error. -/
theorem C9_shell_accepts_zero_spot_but_pricer_raises :
    get_user_input 0.0 [some 0] = some 0 ∧
    (∀ K T r sigma : ℝ, 0 < K → 0 < T →
      black_scholes_merton_checked 0 K T r sigma = none) := by
  constructor
  · norm_num [get_user_input]
  · intro K T r sigma hK hT
    rw [black_scholes_merton_checked, if_neg (not_le.2 hT), if_neg (ne_of_gt hK),
      if_pos (by rw [zero_div])]

/-- Witness for C9 at `K = 100`, `T = 1`: the checked pricer yields no pair. -/
theorem C9_witness :
    black_scholes_merton_checked 0 100 1 (1/20) (1/5) = none :=
  C9_shell_accepts_zero_spot_but_pricer_raises.2 100 1 (1/20) (1/5)
    (by norm_num) (by norm_num)

/-- C10: in the degenerate branch (`T ≤ 0`), the returned pair satisfies the
undiscounted parity `call - put = S - K` exactly, and the result does not
depend on `r` or `sigma`. -/
theorem C10_degenerate_undiscounted_parity
    (S K T r sigma r2 sigma2 : ℝ) (hT : T ≤ 0) :
    (black_scholes_merton S K T r sigma).1 -
        (black_scholes_merton S K T r sigma).2 = S - K ∧
    black_scholes_merton S K T r sigma = black_scholes_merton S K T r2 sigma2 := by
  rw [bsm_degenerate_of_nonpos hT, bsm_degenerate_of_nonpos hT]
  refine ⟨?_, rfl⟩
  unfold bs_degenerate
  split <;> simp

/-- Witness for C10 at `S = 90`, `K = 100`, `T = 0` and two different
`(r, sigma)` pairs. -/
theorem C10_witness :
    (black_scholes_merton 90 100 0 (1/20) (1/5)).1 -
        (black_scholes_merton 90 100 0 (1/20) (1/5)).2 = 90 - 100 ∧
    black_scholes_merton 90 100 0 (1/20) (1/5) = black_scholes_merton 90 100 0 (1/2) 3 :=
  C10_degenerate_undiscounted_parity 90 100 0 (1/20) (1/5) (1/2) 3 le_rfl

end OptionPricer
